import Mathlib

/-!
Verification of the HTML parse / strip / indent / serialize pipeline of
`rico/_html.py`, together with the pieces of the global configuration
(`rico/_config.py`) that `serialize_html` consults.

Python strings are modelled as lists of characters (`PStr`), HTML elements
as a tree datatype mirroring `xml.etree.ElementTree.Element` (tag, ordered
attribute mapping, optional `text`, optional `tail`, ordered children).
Attribute values may be strings, `None` (the valueless sentinel) or booleans,
exactly the values the source stores in `Element.attrib`.
-/

namespace Rico

/-- Python strings, modelled as lists of characters. -/
abbrev PStr := List Char

/-- Convert a Lean string literal to the character-list model. -/
def pstr (s : String) : PStr := s.toList

/-- The characters stripped by Python's `str.strip` / `str.lstrip` /
`str.rstrip` with no argument (ASCII whitespace as used by CPython). -/
def isPyWs (c : Char) : Bool :=
  c = ' ' || c = '\t' || c = '\n' || c = '\r' || c = '\x0b' || c = '\x0c'

/-- Python `str.lstrip()`. -/
def lstrip (s : PStr) : PStr := s.dropWhile isPyWs

/-- Python `str.rstrip()`. -/
def rstrip (s : PStr) : PStr := (s.reverse.dropWhile isPyWs).reverse

/-- Python `str.strip()`. -/
def pyStrip (s : PStr) : PStr := rstrip (lstrip s)

/-- Truthiness of a Python value of static type `str | None`:
`None` and the empty string are falsy. -/
def pyTruthy : Option PStr → Bool
  | none => false
  | some s => !s.isEmpty

/-- Python `s.replace(c, r)` for a single-character pattern `c`. -/
def replace1 (c : Char) (r : PStr) (s : PStr) : PStr :=
  s.flatMap (fun a => if a = c then r else [a])

/-- Python `text.split("\n")`. Always returns at least one (possibly empty) line. -/
def splitNl : PStr → List PStr
  | [] => [[]]
  | c :: rest =>
    if c = '\n' then [] :: splitNl rest
    else
      match splitNl rest with
      | [] => [[c]]
      | l :: ls => (c :: l) :: ls

/-- Python `"\n".join(lines)`. -/
def joinNl : List PStr → PStr
  | [] => []
  | [l] => l
  | l :: ls => l ++ '\n' :: joinNl ls

/-- Python `text.splitlines(keepends=True)`, restricted to `"\n"` line
terminators (the only terminator occurring in this development). -/
def splitlinesKeepEnds : PStr → List PStr
  | [] => []
  | c :: rest =>
    if c = '\n' then [c] :: splitlinesKeepEnds rest
    else
      match splitlinesKeepEnds rest with
      | [] => [[c]]
      | l :: ls => (c :: l) :: ls

/-- The characters `[ \t]` of `textwrap`'s margin regexes. -/
def isTabSpace (c : Char) : Bool := c = ' ' || c = '\t'

/-- Longest common prefix of two strings; the net effect of the margin
update loop in `textwrap.dedent`. -/
def lcp : PStr → PStr → PStr
  | a :: as, b :: bs => if a = b then a :: lcp as bs else []
  | _, _ => []

/-- Model of `textwrap.dedent`: lines consisting solely of `[ \t]` are
normalized to empty, the common leading `[ \t]` margin of the remaining
nonempty lines is computed, and that margin is removed from every line. -/
def textwrap_dedent (text : PStr) : PStr :=
  let lines := (splitNl text).map (fun l => if !l.isEmpty && l.all isTabSpace then [] else l)
  let indents := (lines.filter (fun l => !l.isEmpty)).map (fun l => l.takeWhile isTabSpace)
  let margin := match indents with
    | [] => []
    | i :: rest => rest.foldl lcp i
  if margin.isEmpty then joinNl lines
  else joinNl (lines.map (fun l => if margin.isPrefixOf l then l.drop margin.length else l))

/-- Model of `textwrap.indent text pfx` with the default predicate: every
line containing a non-whitespace character is prefixed by `pfx`. -/
def textwrap_indent (text : PStr) (pfx : PStr) : PStr :=
  ((splitlinesKeepEnds text).map
    (fun l => if !(pyStrip l).isEmpty then pfx ++ l else l)).flatten

/-- Python `s * n` for a string `s` and integer `n` (here `space * level`). -/
def strRepeat (s : PStr) (n : Nat) : PStr := (List.replicate n s).flatten

/-- An attribute value as stored in `Element.attrib` by this code base:
a string, the `None` sentinel (valueless/boolean attribute), or an
explicit Python `bool`. -/
inductive AVal where
  | vStr : PStr → AVal
  | vNone : AVal
  | vBool : Bool → AVal
deriving DecidableEq, Repr

/-- `xml.etree.ElementTree.Element`: tag, ordered attribute mapping,
optional text, optional tail, ordered children. -/
inductive Element where
  | mk : PStr → List (PStr × AVal) → Option PStr → Option PStr → List Element → Element
deriving Repr

def Element.tag : Element → PStr
  | .mk t _ _ _ _ => t

def Element.attrib : Element → List (PStr × AVal)
  | .mk _ a _ _ _ => a

def Element.text : Element → Option PStr
  | .mk _ _ x _ _ => x

def Element.tail : Element → Option PStr
  | .mk _ _ _ l _ => l

def Element.children : Element → List Element
  | .mk _ _ _ _ c => c

/-- Replace the `tail` field of an element (`elem.tail = t` in Python). -/
def setTail (e : Element) (t : Option PStr) : Element :=
  .mk e.tag e.attrib e.text t e.children

mutual
/-- Boolean structural equality on elements. -/
def ebeq : Element → Element → Bool
  | .mk t a x l c, .mk t' a' x' l' c' =>
    t = t' && a = a' && x = x' && l = l' && lbeq c c'
/-- Boolean structural equality on lists of elements. -/
def lbeq : List Element → List Element → Bool
  | [], [] => true
  | e :: es, f :: fs => ebeq e f && lbeq es fs
  | _, _ => false
end

mutual
theorem ebeq_iff : ∀ a b : Element, ebeq a b = true ↔ a = b
  | .mk t a x l c, .mk t' a' x' l' c' => by
    simp only [ebeq, Bool.and_eq_true, decide_eq_true_eq, Element.mk.injEq]
    have := lbeq_iff c c'
    tauto
theorem lbeq_iff : ∀ a b : List Element, lbeq a b = true ↔ a = b
  | [], [] => by simp [lbeq]
  | e :: es, f :: fs => by
    simp only [lbeq, Bool.and_eq_true, List.cons.injEq]
    have h1 := ebeq_iff e f
    have h2 := lbeq_iff es fs
    tauto
  | [], _ :: _ => by simp [lbeq]
  | _ :: _, [] => by simp [lbeq]
end

instance : DecidableEq Element := fun a b =>
  decidable_of_iff (ebeq a b = true) (ebeq_iff a b)

/-- `TAGS_EMPTY` from `rico/_html.py`. -/
def TAGS_EMPTY : List PStr :=
  [pstr "area", pstr "base", pstr "basefont", pstr "br", pstr "col",
   pstr "embed", pstr "frame", pstr "hr", pstr "img", pstr "input",
   pstr "isindex", pstr "link", pstr "meta", pstr "param", pstr "path",
   pstr "source", pstr "track", pstr "wbr"]

/-- `TAGS_INLINE` from `rico/_html.py`. -/
def TAGS_INLINE : List PStr :=
  [pstr "a", pstr "abbr", pstr "b", pstr "bdi", pstr "bdo", pstr "br",
   pstr "cite", pstr "code", pstr "data", pstr "dfn", pstr "em", pstr "i",
   pstr "kbd", pstr "mark", pstr "q", pstr "rp", pstr "rt", pstr "ruby",
   pstr "s", pstr "samp", pstr "small", pstr "span", pstr "strong",
   pstr "sub", pstr "sup", pstr "time", pstr "u", pstr "var", pstr "wbr"]

/-- `TAGS_NOT_ESCAPED` from `rico/_html.py`. -/
def TAGS_NOT_ESCAPED : List PStr := [pstr "script", pstr "style"]

/-- `TAGS_PREFORMATTED` from `rico/_html.py`. -/
def TAGS_PREFORMATTED : List PStr := [pstr "pre"]

/-- Python `str.lower()`. -/
def lower (s : PStr) : PStr := s.map Char.toLower

/-- `strip_html` from `rico/_html.py`: removes unnecessary whitespace.
Elements whose lowercased tag is inline or preformatted are copied with
their children untouched; otherwise the text is left-stripped (and also
right-stripped when the element has no children) and the children are
stripped recursively. The tail is copied over unmodified. -/
def strip_html : Element → Element
  | .mk tag attrib text tail children =>
    if lower tag ∈ TAGS_INLINE ∨ lower tag ∈ TAGS_PREFORMATTED then
      .mk tag attrib text tail children
    else
      let text1 := if pyTruthy text then text.map lstrip else text
      let text2 := if pyTruthy text1 && children.isEmpty then text1.map rstrip else text1
      .mk tag attrib text2 tail (stripList children)
where
  /-- The `for child in element: stripped_element.append(strip_html(child))` loop. -/
  stripList : List Element → List Element
    | [] => []
    | c :: cs => strip_html c :: stripList cs

/-- The per-child tail adjustment of `indent_html`:
`if not child.tail or not child.tail.strip(): child.tail = nt`. -/
def adjustTail (e : Element) (nt : PStr) : Element :=
  if !pyTruthy e.tail || !pyTruthy (e.tail.map pyStrip) then setTail e (some nt) else e

/-- Apply `f` to the last entry of a list (`lst[-1] = f(lst[-1])`). -/
def mapLast (f : Element → Element) : List Element → List Element
  | [] => []
  | [x] => [f x]
  | x :: xs => x :: mapLast f xs

/-- `indent_html` from `rico/_html.py`: returns a new, indented element.
Elements whose lowercased tag is preformatted or inline are copied with
their children untouched. Otherwise the element's own text is normalized
(left-stripped; re-indented via `textwrap` when it spans several lines;
whitespace-only text becomes a newline plus indentation when there are
children, `None` otherwise), every child is indented one level deeper and
given a newline-plus-indentation tail when its own tail is whitespace-only,
and the last child's whitespace-only tail is set to close the parent at
the parent's level. -/
def indent_html (element : Element) (space : PStr) (level : Nat) : Element :=
  match element with
  | .mk tag attrib text tail children =>
    if lower tag ∈ TAGS_PREFORMATTED ∨ lower tag ∈ TAGS_INLINE then
      .mk tag attrib text tail children
    else
      let has_children := !children.isEmpty
      let left_stripped_text := if pyTruthy text then text.map lstrip else text
      let text1 :=
        if !has_children && text.isSome && pyTruthy left_stripped_text then
          if (left_stripped_text.getD []).contains '\n' then
            some (pstr "\n" ++
              textwrap_indent (pyStrip (textwrap_dedent (text.getD []))) (strRepeat space (level + 1)) ++
              pstr "\n" ++ strRepeat space level)
          else left_stripped_text
        else if !(pyTruthy left_stripped_text) then
          if has_children then some (pstr "\n" ++ strRepeat space (level + 1)) else none
        else text
      let ich := indentChildren space level children
      let ich2 :=
        if has_children then
          mapLast (fun lc => adjustTail lc (pstr "\n" ++ strRepeat space level)) ich
        else ich
      .mk tag attrib text1 tail ich2
where
  /-- The child loop: each child is indented at `level + 1` and its
  whitespace-only tail replaced by a newline plus `level + 1` indentation. -/
  indentChildren (space : PStr) (level : Nat) : List Element → List Element
    | [] => []
    | c :: cs =>
      adjustTail (indent_html c space (level + 1)) (pstr "\n" ++ strRepeat space (level + 1)) ::
        indentChildren space level cs

/-- Depth of an element tree (a termination measure for the serializer;
not part of the source). -/
def depth : Element → Nat
  | .mk _ _ _ _ children => depthList children + 1
where
  depthList : List Element → Nat
    | [] => 0
    | c :: cs => max (depth c) (depthList cs)

/-- The entries of the global configuration dictionary of `rico/_config.py`
consulted by `serialize_html`: `indent_html`, `indent_space`, `strip_html`. -/
structure Config where
  indent_html : Bool
  indent_space : PStr
  strip_html : Bool
deriving DecidableEq, Repr

/-- The defaults of `_global_config` in `rico/_config.py`:
`indent_html = False`, `indent_space = "  "`, `strip_html = False`. -/
def default_config : Config := ⟨false, pstr "  ", false⟩

/-- `_escape_cdata` from `rico/_html.py` (a copy of
`xml.etree.ElementTree._escape_cdata`). -/
def escape_cdata (text : PStr) : PStr :=
  let text := if text.contains '&' then replace1 '&' (pstr "&amp;") text else text
  let text := if text.contains '<' then replace1 '<' (pstr "&lt;") text else text
  if text.contains '>' then replace1 '>' (pstr "&gt;") text else text

/-- `_escape_attrib_html` from `rico/_html.py` (a copy of
`xml.etree.ElementTree._escape_attrib_html`): escapes `&`, `>`, `"`
and leaves `<` alone. -/
def escape_attrib_html (text : PStr) : PStr :=
  let text := if text.contains '&' then replace1 '&' (pstr "&amp;") text else text
  let text := if text.contains '>' then replace1 '>' (pstr "&gt;") text else text
  if text.contains '"' then replace1 '"' (pstr "&quot;") text else text

/-- The attribute string of `serialize_html`: values that are neither `None`
nor `bool` render as ` name="escaped-value"`; `None` and `True` render as
the bare ` name`; attributes with value `False` are omitted. -/
def serializeAttrs (attrib : List (PStr × AVal)) : PStr :=
  (attrib.filterMap (fun kv =>
    match kv.2 with
    | .vStr v => some (pstr " " ++ kv.1 ++ pstr "=\"" ++ escape_attrib_html v ++ pstr "\"")
    | .vNone => some (pstr " " ++ kv.1)
    | .vBool b => if b then some (pstr " " ++ kv.1) else none)).flatten

/-- The option resolution and preprocessing at the top of `serialize_html`:
`None` arguments are replaced by the corresponding configuration defaults,
then the tree is stripped (if `strip`) and indented (if `indent`). -/
def resolve_tree (cfg : Config) (element : Element) (indent : Option Bool)
    (space : Option PStr) (strip : Option Bool) : Element :=
  let indentB := indent.getD cfg.indent_html
  let spaceR := space.getD cfg.indent_space
  let stripB := strip.getD cfg.strip_html
  let element := if stripB then strip_html element else element
  if indentB then indent_html element spaceR 0 else element

/-- The emission part of `serialize_html` (everything after the strip/indent
preprocessing), parameterized by the function `rec_fn` used for the recursive
calls `serialize_html(e)` on the children (which pass `None` for all three
options in the source). -/
def emitWith (rec_fn : Element → PStr) (element : Element) : PStr :=
  let attrib := serializeAttrs element.attrib
  let ltag := lower element.tag
  let closing_slash := if ltag ∈ TAGS_EMPTY then pstr "/" else []
  let opening_tag := pstr "<" ++ element.tag ++ attrib ++ closing_slash ++ pstr ">"
  let text := match element.text with
    | some t => if ltag ∈ TAGS_NOT_ESCAPED then t else escape_cdata t
    | none => []
  let children := (element.children.map rec_fn).flatten
  let closing_tag := if ltag ∉ TAGS_EMPTY then pstr "</" ++ element.tag ++ pstr ">" else []
  let tail := match element.tail with
    | some t => escape_cdata t
    | none => []
  opening_tag ++ text ++ children ++ closing_tag ++ tail

/-- The body of `serialize_html` from `rico/_html.py`: option resolution and
strip/indent preprocessing, then emission. -/
def serializeBody (cfg : Config) (rec_fn : Element → PStr) (element : Element)
    (indent : Option Bool) (space : Option PStr) (strip : Option Bool) : PStr :=
  emitWith rec_fn (resolve_tree cfg element indent space strip)

/-- Recursion-limited form of `serialize_html`. The recursion of the source
is on the children of the *resolved* (stripped/indented) element, which is
not structurally smaller; `serializeF` therefore recurses on an explicit
bound. `serialize_unfold` below shows that with the bound `depth element`
the limit is never reached, so `serialize_html` satisfies exactly the
recurrence of the source. -/
def serializeF (cfg : Config) : Nat → Element → Option Bool → Option PStr → Option Bool → PStr
  | 0, _, _, _, _ => []
  | fuel + 1, element, indent, space, strip =>
    serializeBody cfg (fun c => serializeF cfg fuel c none none none) element indent space strip

/-- `serialize_html` from `rico/_html.py`. The global configuration read by
`rico._config.get_config()` is passed explicitly as `cfg`. -/
def serialize_html (cfg : Config) (element : Element) (indent : Option Bool)
    (space : Option PStr) (strip : Option Bool) : PStr :=
  serializeF cfg (depth element) element indent space strip

/-- Plain structural emission of an element: the serializer with no option
resolution and no strip/indent preprocessing anywhere. Modelled from the
spec for claim C3 ("the configuration is not consulted again while
serializing children"): under that reading the children of the resolved
tree would be emitted by exactly this function. -/
def serialize_plain (element : Element) : PStr :=
  match element with
  | .mk tag attrib text tail children =>
    let attribS := serializeAttrs attrib
    let ltag := lower tag
    let closing_slash := if ltag ∈ TAGS_EMPTY then pstr "/" else []
    let opening_tag := pstr "<" ++ tag ++ attribS ++ closing_slash ++ pstr ">"
    let textS := match text with
      | some t => if ltag ∈ TAGS_NOT_ESCAPED then t else escape_cdata t
      | none => []
    let childrenS := plainList children
    let closing_tag := if ltag ∉ TAGS_EMPTY then pstr "</" ++ tag ++ pstr ">" else []
    let tailS := match tail with
      | some t => escape_cdata t
      | none => []
    opening_tag ++ textS ++ childrenS ++ closing_tag ++ tailS
where
  plainList : List Element → PStr
    | [] => []
    | c :: cs => serialize_plain c ++ plainList cs

/-- Serialization as claim C3 describes it: the `indent`/`space`/`strip`
options are resolved against the configuration exactly once, at the top of
the call, and all descendants are serialized under those same resolved
values, without consulting the configuration again. Modelled from the
spec's words; to be compared with `serialize_html`. -/
def serialize_once (cfg : Config) (element : Element) (indent : Option Bool)
    (space : Option PStr) (strip : Option Bool) : PStr :=
  serialize_plain (resolve_tree cfg element indent space strip)

/-- Events delivered by the `html.parser.HTMLParser` tokenizer to the
`_HTMLParser` subclass in `rico/_html.py`: start tags (with attribute
name/value pairs, `none` for valueless attributes), end tags, and
character data. -/
inductive Event where
  | startTag : PStr → List (PStr × Option PStr) → Event
  | endTag : PStr → Event
  | chardata : PStr → Event
deriving DecidableEq, Repr

/-- Python `dict(attrs)`: a later duplicate key overwrites the value but
keeps the first occurrence's position. -/
def dictOf (l : List (PStr × Option PStr)) : List (PStr × Option PStr) :=
  l.foldl (fun d kv =>
    if d.any (fun kv2 => kv2.1 = kv.1) then
      d.map (fun kv2 => if kv2.1 = kv.1 then (kv2.1, kv.2) else kv2)
    else d ++ [kv]) []

/-- Attribute values as stored by the parser: strings, or the `None`
sentinel for valueless (boolean) attributes. -/
def attrsToAVal (l : List (PStr × Option PStr)) : List (PStr × AVal) :=
  l.map (fun kv => (kv.1, match kv.2 with | some s => AVal.vStr s | none => AVal.vNone))

/-- An element under construction in `xml.etree.ElementTree.TreeBuilder`:
tag, attributes, accumulated text, and the children built so far (in
reverse order). -/
structure Frame where
  ftag : PStr
  fattrib : List (PStr × AVal)
  ftext : Option PStr
  childrenRev : List Element
deriving Repr

/-- State of `xml.etree.ElementTree.TreeBuilder`: the stack of open
elements (innermost first), the completed root element if the stack has
been emptied, and whether character data currently flushes to the tail of
the most recently closed element (`self._tail`). -/
structure Builder where
  stack : List Frame
  result : Option Element
  tailMode : Bool
deriving Repr

/-- `TreeBuilder.start(tag, attrs)`: push a fresh open element. -/
def bstart (b : Builder) (tag : PStr) (attrib : List (PStr × AVal)) : Builder :=
  { stack := ⟨tag, attrib, none, []⟩ :: b.stack, result := b.result, tailMode := false }

/-- `TreeBuilder.data(s)`: character data accumulates on the open element's
text, or, right after an `end`, on the tail of the most recently closed
element (the head of the open element's reversed child list). The
`tailMode`-with-no-children case cannot arise from the handlers below. -/
def bdata (b : Builder) (s : PStr) : Builder :=
  match b.stack with
  | [] => b
  | f :: rest =>
    if b.tailMode then
      match f.childrenRev with
      | c :: cs =>
        { b with stack := { f with childrenRev := setTail c (some ((c.tail.getD []) ++ s)) :: cs } :: rest }
      | [] => { b with stack := { f with ftext := some ((f.ftext.getD []) ++ s) } :: rest }
    else
      { b with stack := { f with ftext := some ((f.ftext.getD []) ++ s) } :: rest }

/-- `TreeBuilder.end(tag)`: pop the innermost open element. The `assert` in
`ElementTree` requires the popped tag to equal `tag`; a mismatch or an
empty stack is modelled as failure (`none`). The completed element is
appended to its parent, or recorded as the result when the stack empties. -/
def bend (b : Builder) (tag : PStr) : Option Builder :=
  match b.stack with
  | [] => none
  | f :: rest =>
    if f.ftag = tag then
      let elem := Element.mk f.ftag f.fattrib f.ftext none f.childrenRev.reverse
      match rest with
      | [] => some { stack := [], result := some elem, tailMode := true }
      | g :: gs =>
        some { stack := { g with childrenRev := elem :: g.childrenRev } :: gs,
               result := b.result, tailMode := true }
    else none

/-- State of the `_HTMLParser` subclass in `rico/_html.py`: the tree
builder plus the pending void element (`self._empty_tag`). -/
structure PState where
  builder : Builder
  emptyTag : Option PStr
deriving Repr

/-- `_HTMLParser.__init__`: a synthetic `root` element is opened first. -/
def initState : PState :=
  { builder := { stack := [⟨pstr "root", [], none, []⟩], result := none, tailMode := false },
    emptyTag := none }

/-- `_HTMLParser.handle_starttag`: a pending void element is closed first;
the new tag becomes pending iff its lowercased name is in `TAGS_EMPTY`. -/
def handle_starttag (st : PState) (tag : PStr) (attrs : List (PStr × Option PStr)) :
    Option PState := do
  let b ← match st.emptyTag with
    | some t => bend st.builder t
    | none => some st.builder
  some { builder := bstart b tag (attrsToAVal (dictOf attrs)),
         emptyTag := if lower tag ∈ TAGS_EMPTY then some tag else none }

/-- `_HTMLParser.handle_endtag`: a pending void element with a different
lowercased name is closed first; then the end tag itself is processed. -/
def handle_endtag (st : PState) (tag : PStr) : Option PState := do
  let b ← match st.emptyTag with
    | some t => if lower t ≠ lower tag then bend st.builder t else some st.builder
    | none => some st.builder
  let b2 ← bend b tag
  some { builder := b2, emptyTag := none }

/-- `_HTMLParser.handle_data`: a pending void element is closed before the
data is attached. -/
def handle_data (st : PState) (s : PStr) : Option PState := do
  let b ← match st.emptyTag with
    | some t => bend st.builder t
    | none => some st.builder
  some { builder := bdata b s, emptyTag := none }

/-- Dispatch one tokenizer event to the corresponding handler. -/
def handleEvent (st : PState) : Event → Option PState
  | .startTag t attrs => handle_starttag st t attrs
  | .endTag t => handle_endtag st t
  | .chardata s => handle_data st s

/-- `_HTMLParser.close`: `self._builder.end(self._root)` followed by
`TreeBuilder.close` (which requires an empty stack) and `tuple(root)`,
i.e. the children of the synthetic root. -/
def pclose (st : PState) : Option (List Element) := do
  let b ← bend st.builder (pstr "root")
  match b.stack, b.result with
  | [], some root => some root.children
  | _, _ => none

/-- Run `_HTMLParser` over a list of tokenizer events and close it. -/
def parse_events (evs : List Event) : Option (List Element) := do
  let st ← evs.foldlM handleEvent initState
  pclose st

/-- Characters allowed in tag and attribute names by the restricted
tokenizer model below. -/
def isNameChar (c : Char) : Bool :=
  c.isAlphanum || c = '-' || c = '_' || c = ':' || c = '.'

/-- Attribute scanner of the restricted tokenizer model: consumes `name`,
`name=value`, `name="value"` and `name='value'` pairs up to `>` or `/>`.
Attribute names are lowercased, as `html.parser` does. Returns the
attribute list, whether the tag is self-closing, and the remaining input
after the closing `>`. -/
def tokAttrs : Nat → PStr → List (PStr × Option PStr) → List (PStr × Option PStr) × Bool × PStr
  | 0, s, acc => (acc.reverse, false, s)
  | fuel + 1, s, acc =>
    match s.dropWhile isPyWs with
    | [] => (acc.reverse, false, [])
    | '>' :: rest => (acc.reverse, false, rest)
    | '/' :: '>' :: rest => (acc.reverse, true, rest)
    | s1 =>
      let name := s1.takeWhile isNameChar
      if name.isEmpty then tokAttrs fuel (s1.drop 1) acc
      else
        match s1.dropWhile isNameChar with
        | '=' :: '"' :: rest =>
          let v := rest.takeWhile (fun c => c ≠ '"')
          tokAttrs fuel (rest.drop (v.length + 1)) ((lower name, some v) :: acc)
        | '=' :: '\'' :: rest =>
          let v := rest.takeWhile (fun c => c ≠ '\'')
          tokAttrs fuel (rest.drop (v.length + 1)) ((lower name, some v) :: acc)
        | '=' :: rest =>
          let v := rest.takeWhile (fun c => !isPyWs c && c ≠ '>')
          tokAttrs fuel (rest.drop v.length) ((lower name, some v) :: acc)
        | rest => tokAttrs fuel rest ((lower name, none) :: acc)

/-- Model of the stdlib `html.parser` tokenizer feeding `_HTMLParser`,
restricted to well-formed start tags, end tags and character data without
entity references, comments or declarations (the only forms the theorems
below apply it to). `html.parser` lowercases tag and attribute names and
reports a self-closing `<t/>` as a start event followed by an end event
(`handle_startendtag`). -/
def tokenizeF : Nat → PStr → List Event
  | 0, _ => []
  | fuel + 1, s =>
    match s with
    | [] => []
    | '<' :: '/' :: rest =>
      let name := rest.takeWhile isNameChar
      let rest2 := (rest.dropWhile isNameChar).dropWhile (fun c => c ≠ '>')
      .endTag (lower name) :: tokenizeF fuel (rest2.drop 1)
    | '<' :: rest =>
      if (rest.headD ' ').isAlpha then
        let name := rest.takeWhile isNameChar
        let res := tokAttrs rest.length (rest.dropWhile isNameChar) []
        if res.2.1 then
          .startTag (lower name) res.1 :: .endTag (lower name) :: tokenizeF fuel res.2.2
        else
          .startTag (lower name) res.1 :: tokenizeF fuel res.2.2
      else
        .chardata ['<'] :: tokenizeF fuel rest
    | _ :: _ =>
      let d := s.takeWhile (fun c => c ≠ '<')
      .chardata d :: tokenizeF fuel (s.drop d.length)

/-- `parse_html` from `rico/_html.py`: tokenize, feed the events through
`_HTMLParser`, close. -/
def parse_html (s : PStr) : Option (List Element) :=
  parse_events (tokenizeF s.length s)

/-- Recursive well-formedness of void elements: every element whose
lowercased tag is in `TAGS_EMPTY` has no children and no text. -/
def voidOkB : Element → Bool
  | .mk tag _ text _ children =>
    (if lower tag ∈ TAGS_EMPTY then children.isEmpty && text.isNone else true) &&
      voidOkList children
where
  voidOkList : List Element → Bool
    | [] => true
    | c :: cs => voidOkB c && voidOkList cs

/-- The text normalization that claim C4 (amended) ascribes to `strip_html`
on block elements: left-strip always; right-strip exactly when the element
has no children. -/
def stripTextSpec : Option PStr → Bool → Option PStr
  | none, _ => none
  | some s, noKids => if noKids then some (rstrip (lstrip s)) else some (lstrip s)

/-- Character-level specification of `_escape_cdata`. -/
def escChar (c : Char) : PStr :=
  if c = '&' then pstr "&amp;"
  else if c = '<' then pstr "&lt;"
  else if c = '>' then pstr "&gt;"
  else [c]

/-- Character-level specification of `_escape_attrib_html`;
note that `'<'` maps to itself. -/
def escAttrChar (c : Char) : PStr :=
  if c = '&' then pstr "&amp;"
  else if c = '>' then pstr "&gt;"
  else if c = '"' then pstr "&quot;"
  else [c]

/-- All completed elements stored in the builder's open frames are
well-formed with respect to void tags. -/
def stackOk (b : Builder) : Prop :=
  ∀ f ∈ b.stack, ∀ c ∈ f.childrenRev, voidOkB c = true

/-- The recorded result (if any) is well-formed with respect to void tags. -/
def resultOk (b : Builder) : Prop :=
  ∀ r, b.result = some r → voidOkB r = true

/-- No frame in the list has a void (lowercased) tag. -/
def framesNonVoid (l : List Frame) : Prop :=
  ∀ g ∈ l, lower g.ftag ∉ TAGS_EMPTY

/-- Invariant of the `_HTMLParser` state: all completed elements are
void-well-formed; when a void element is pending it is the freshly opened
top frame (no children accumulated, no text) and every other open frame
has a non-void tag; with no pending void element, every open frame has a
non-void tag. -/
def PInv (st : PState) : Prop :=
  stackOk st.builder ∧ resultOk st.builder ∧
  (match st.emptyTag with
   | none => framesNonVoid st.builder.stack
   | some t => ∃ f fs, st.builder.stack = f :: fs ∧ f.ftag = t ∧ f.childrenRev = [] ∧
       f.ftext = none ∧ framesNonVoid fs)

example : strip_html (.mk (pstr "p") [] (some (pstr "  x  ")) (some (pstr " t ")) []) =
    .mk (pstr "p") [] (some (pstr "x")) (some (pstr " t ")) [] := by decide

-- Fragment of the repository's own `test_serialize_html_default` expectation:
-- `<p> Hello, >&< <br> World again </p>` serializes with escaped text,
-- a self-closed `<br/>` and an escaped tail.
example : serialize_html default_config
    (.mk (pstr "p") [] (some (pstr " Hello, >&< "))
      none [.mk (pstr "br") [] none (some (pstr " World again ")) []])
    none none none =
    pstr "<p> Hello, &gt;&amp;&lt; <br/> World again </p>" := by decide

-- Fragment of `test_serialize_html_style`: script/style text is verbatim.
example : serialize_html default_config
    (.mk (pstr "style") [] (some (pstr ".>&<")) none []) none none none =
    pstr "<style>.>&<</style>" := by decide

mutual
/-- Structural induction on elements, with the induction hypothesis
available for every child. -/
theorem element_ind (P : Element → Prop)
    (h : ∀ t a x l cs, (∀ c ∈ cs, P c) → P (.mk t a x l cs)) : ∀ e, P e
  | .mk t a x l cs => h t a x l cs (fun c hc => element_ind_list P h cs c hc)
theorem element_ind_list (P : Element → Prop)
    (h : ∀ t a x l cs, (∀ c ∈ cs, P c) → P (.mk t a x l cs)) :
    ∀ cs : List Element, ∀ c ∈ cs, P c
  | [] => fun _ hc => nomatch hc
  | c0 :: cs => fun c hc => by
    rcases List.mem_cons.mp hc with h1 | h2
    · subst h1; exact element_ind P h c
    · exact element_ind_list P h cs c h2
end

theorem stripList_eq_map : ∀ cs, strip_html.stripList cs = cs.map strip_html
  | [] => rfl
  | c :: cs => by simp only [strip_html.stripList, List.map_cons, stripList_eq_map cs]

theorem indentChildren_eq_map (space : PStr) (level : Nat) :
    ∀ cs, indent_html.indentChildren space level cs =
      cs.map (fun c =>
        adjustTail (indent_html c space (level + 1)) (pstr "\n" ++ strRepeat space (level + 1)))
  | [] => rfl
  | c :: cs => by
    simp only [indent_html.indentChildren, List.map_cons,
      indentChildren_eq_map space level cs]

theorem plainList_eq_map : ∀ cs, serialize_plain.plainList cs = (cs.map serialize_plain).flatten
  | [] => rfl
  | c :: cs => by
    simp only [serialize_plain.plainList, List.map_cons, List.flatten_cons,
      plainList_eq_map cs]

theorem voidOkList_eq : ∀ cs, voidOkB.voidOkList cs = cs.all voidOkB
  | [] => rfl
  | c :: cs => by simp only [voidOkB.voidOkList, List.all_cons, voidOkList_eq cs]

theorem depthList_cons (c : Element) (cs : List Element) :
    depth.depthList (c :: cs) = max (depth c) (depth.depthList cs) := rfl

theorem depth_setTail (e : Element) (t : Option PStr) : depth (setTail e t) = depth e := by
  cases e; rfl

theorem depth_adjustTail (e : Element) (nt : PStr) : depth (adjustTail e nt) = depth e := by
  unfold adjustTail
  split
  · exact depth_setTail e _
  · rfl

theorem depthList_mem_le {c : Element} : ∀ {cs : List Element}, c ∈ cs →
    depth c ≤ depth.depthList cs
  | c0 :: cs, h => by
    rcases List.mem_cons.mp h with h1 | h2
    · subst h1; simp [depth.depthList]
    · have := depthList_mem_le h2
      simp only [depth.depthList]
      omega

theorem depth_child_lt {c r : Element} (h : c ∈ r.children) : depth c < depth r := by
  cases r with
  | mk t a x l cs =>
    simp only [Element.children] at h
    have := depthList_mem_le h
    simp only [depth]
    omega

theorem depthList_congr (f : Element → Element) :
    ∀ cs, (∀ c ∈ cs, depth (f c) = depth c) →
      depth.depthList (cs.map f) = depth.depthList cs
  | [], _ => rfl
  | c :: cs, h => by
    simp only [List.map_cons, depth.depthList]
    rw [h c (List.mem_cons_self c cs), depthList_congr f cs (fun d hd => h d (List.mem_cons_of_mem c hd))]

theorem depthList_mapLast (f : Element → Element) (hf : ∀ c, depth (f c) = depth c) :
    ∀ cs, depth.depthList (mapLast f cs) = depth.depthList cs
  | [] => rfl
  | [c] => by simp [mapLast, depth.depthList, hf c]
  | c :: c2 :: cs => by
    show depth.depthList (c :: mapLast f (c2 :: cs)) = _
    rw [depthList_cons, depthList_cons, depthList_mapLast f hf (c2 :: cs)]

mutual
theorem depth_strip : ∀ e, depth (strip_html e) = depth e
  | .mk t a x l cs => by
    unfold strip_html
    split
    · rfl
    · simp only [depth, depthList_strip cs]
theorem depthList_strip : ∀ cs, depth.depthList (strip_html.stripList cs) = depth.depthList cs
  | [] => rfl
  | c :: cs => by
    simp only [strip_html.stripList, depth.depthList, depth_strip c, depthList_strip cs]
end

mutual
theorem depth_indent : ∀ e space level, depth (indent_html e space level) = depth e
  | .mk t a x l cs, space, level => by
    unfold indent_html
    split
    · rfl
    · simp only [depth]
      split
      · rw [depthList_mapLast _ (fun c => depth_adjustTail c _) _,
          depthList_indent cs space level]
      · rw [depthList_indent cs space level]
theorem depthList_indent : ∀ cs space level,
    depth.depthList (indent_html.indentChildren space level cs) = depth.depthList cs
  | [], _, _ => rfl
  | c :: cs, space, level => by
    simp only [indent_html.indentChildren, depth.depthList]
    rw [depth_adjustTail, depth_indent c space (level + 1), depthList_indent cs space level]
end

theorem depth_resolve (cfg : Config) (e : Element) (i : Option Bool) (s : Option PStr)
    (st : Option Bool) : depth (resolve_tree cfg e i s st) = depth e := by
  unfold resolve_tree
  dsimp only
  split <;> split <;> simp [depth_indent, depth_strip]

theorem tag_strip (e : Element) : (strip_html e).tag = e.tag := by
  cases e
  unfold strip_html
  split <;> rfl

theorem tag_indent (e : Element) (space : PStr) (level : Nat) :
    (indent_html e space level).tag = e.tag := by
  cases e
  unfold indent_html
  split <;> rfl

theorem tag_resolve (cfg : Config) (e : Element) (i : Option Bool) (s : Option PStr)
    (st : Option Bool) : (resolve_tree cfg e i s st).tag = e.tag := by
  unfold resolve_tree
  dsimp only
  split <;> split <;> simp [tag_indent, tag_strip]

/-- An inline or preformatted element is returned unchanged by `strip_html`. -/
theorem strip_copy (e : Element)
    (h : lower e.tag ∈ TAGS_INLINE ∨ lower e.tag ∈ TAGS_PREFORMATTED) :
    strip_html e = e := by
  cases e with
  | mk t a x l cs =>
    simp only [Element.tag] at h
    unfold strip_html
    rw [if_pos h]

/-- A preformatted or inline element is returned unchanged by `indent_html`. -/
theorem indent_copy (e : Element) (space : PStr) (level : Nat)
    (h : lower e.tag ∈ TAGS_PREFORMATTED ∨ lower e.tag ∈ TAGS_INLINE) :
    indent_html e space level = e := by
  cases e with
  | mk t a x l cs =>
    simp only [Element.tag] at h
    unfold indent_html
    rw [if_pos h]

theorem emitWith_congr (f g : Element → PStr) (r : Element)
    (h : ∀ c ∈ r.children, f c = g c) : emitWith f r = emitWith g r := by
  cases r with
  | mk t a x l cs =>
    simp only [Element.children] at h
    unfold emitWith
    dsimp only [Element.children]
    rw [List.map_congr_left h]

theorem serializeF_congr (cfg : Config) : ∀ n m (e : Element) i s st,
    depth e ≤ n → depth e ≤ m →
    serializeF cfg n e i s st = serializeF cfg m e i s st := by
  intro n
  induction n with
  | zero =>
    intro m e i s st h1 _
    cases e with | mk t a x l cs => simp [depth] at h1
  | succ n ih =>
    intro m e i s st h1 h2
    cases m with
    | zero => cases e with | mk t a x l cs => simp [depth] at h2
    | succ m =>
      simp only [serializeF, serializeBody]
      apply emitWith_congr
      intro c hc
      have hlt : depth c < depth e := by
        have := depth_child_lt hc
        rwa [depth_resolve] at this
      exact ih m c none none none (by omega) (by omega)

/-- `serialize_html` satisfies the recurrence of the source: resolve the
options, strip/indent, then emit the element with the children serialized
by recursive calls that pass `None` for all options. -/
theorem serialize_unfold (cfg : Config) (e : Element) (i : Option Bool) (s : Option PStr)
    (st : Option Bool) :
    serialize_html cfg e i s st =
      serializeBody cfg (fun c => serialize_html cfg c none none none) e i s st := by
  unfold serialize_html
  cases e with
  | mk t a x l cs =>
    show serializeF cfg (depth.depthList cs + 1) _ i s st = _
    simp only [serializeF, serializeBody]
    apply emitWith_congr
    intro c hc
    have hlt : depth c < depth (Element.mk t a x l cs) := by
      have := depth_child_lt hc
      rwa [depth_resolve] at this
    simp only [depth] at hlt
    exact serializeF_congr cfg (depth.depthList cs) (depth c) c none none none
      (by omega) (le_refl _)

theorem serialize_plain_eq_emit (r : Element) :
    serialize_plain r = emitWith serialize_plain r := by
  cases r with
  | mk t a x l cs =>
    unfold serialize_plain emitWith
    dsimp only [Element.children, Element.tag, Element.attrib, Element.text, Element.tail]
    rw [plainList_eq_map]

theorem resolve_id (cfg : Config) (e : Element) (s : Option PStr) :
    resolve_tree cfg e (some false) s (some false) = e := rfl

theorem resolve_none_of_flags (cfg : Config) (h1 : cfg.indent_html = false)
    (h2 : cfg.strip_html = false) (e : Element) :
    resolve_tree cfg e none none none = e := by
  unfold resolve_tree
  dsimp only [Option.getD]
  rw [h1, h2]
  rfl

/-- With both configuration flags off, the no-argument recursive calls of
`serialize_html` perform no further transformation: they coincide with the
plain structural serializer. -/
theorem serialize_noflags (cfg : Config) (h1 : cfg.indent_html = false)
    (h2 : cfg.strip_html = false) :
    ∀ e, serialize_html cfg e none none none = serialize_plain e := by
  refine element_ind _ ?_
  intro t a x l cs ih
  rw [serialize_unfold]
  unfold serializeBody
  rw [resolve_none_of_flags cfg h1 h2, serialize_plain_eq_emit]
  apply emitWith_congr
  intro c hc
  simp only [Element.children] at hc
  exact ih c hc

theorem replace1_append (c : Char) (r u v : PStr) :
    replace1 c r (u ++ v) = replace1 c r u ++ replace1 c r v := by
  simp [replace1]

theorem replace1_id (c : Char) (r : PStr) : ∀ s : PStr, (∀ a ∈ s, a ≠ c) →
    replace1 c r s = s := by
  intro s
  induction s with
  | nil => intro _; rfl
  | cons a as ih =>
    intro h
    simp only [replace1, List.flatMap_cons, if_neg (h a (List.mem_cons_self a as)),
      List.singleton_append, List.cons.injEq]
    constructor
    · trivial
    · simpa [replace1] using ih (fun b hb => h b (List.mem_cons_of_mem a hb))

theorem guard_replace (c : Char) (r s : PStr) :
    (if s.contains c then replace1 c r s else s) = replace1 c r s := by
  split
  · rfl
  · rename_i h
    rw [replace1_id c r s (fun a ha hac => h (by subst hac; exact List.elem_iff.mpr ha))]

theorem escape_cdata_chain (s : PStr) :
    escape_cdata s =
      replace1 '>' (pstr "&gt;") (replace1 '<' (pstr "&lt;") (replace1 '&' (pstr "&amp;") s)) := by
  unfold escape_cdata
  dsimp only
  rw [guard_replace, guard_replace, guard_replace]

theorem escape_attrib_chain (s : PStr) :
    escape_attrib_html s =
      replace1 '"' (pstr "&quot;") (replace1 '>' (pstr "&gt;") (replace1 '&' (pstr "&amp;") s)) := by
  unfold escape_attrib_html
  dsimp only
  rw [guard_replace, guard_replace, guard_replace]

/-- `_escape_cdata` is exactly the character-by-character escaping of
`&`, `<`, `>`. -/
theorem escape_cdata_eq : ∀ s : PStr, escape_cdata s = s.flatMap escChar
  | [] => by rw [escape_cdata_chain]; rfl
  | a :: as => by
    rw [escape_cdata_chain,
      show replace1 '&' (pstr "&amp;") (a :: as) =
        (if a = '&' then pstr "&amp;" else [a]) ++ replace1 '&' (pstr "&amp;") as from rfl,
      replace1_append, replace1_append, List.flatMap_cons]
    have ih := escape_cdata_eq as
    rw [escape_cdata_chain] at ih
    rw [ih]
    congr 1
    by_cases h1 : a = '&'
    · subst h1; rfl
    by_cases h2 : a = '<'
    · subst h2; rfl
    by_cases h3 : a = '>'
    · subst h3; rfl
    simp [replace1, escChar, h1, h2, h3]

/-- `_escape_attrib_html` is exactly the character-by-character escaping of
`&`, `>`, `"`, leaving `<` in place. -/
theorem escape_attrib_eq : ∀ s : PStr, escape_attrib_html s = s.flatMap escAttrChar
  | [] => by rw [escape_attrib_chain]; rfl
  | a :: as => by
    rw [escape_attrib_chain,
      show replace1 '&' (pstr "&amp;") (a :: as) =
        (if a = '&' then pstr "&amp;" else [a]) ++ replace1 '&' (pstr "&amp;") as from rfl,
      replace1_append, replace1_append, List.flatMap_cons]
    have ih := escape_attrib_eq as
    rw [escape_attrib_chain] at ih
    rw [ih]
    congr 1
    by_cases h1 : a = '&'
    · subst h1; rfl
    by_cases h2 : a = '>'
    · subst h2; rfl
    by_cases h3 : a = '"'
    · subst h3; rfl
    simp [replace1, escAttrChar, h1, h2, h3]

example : indent_html (.mk (pstr "div") [] none none
      [.mk (pstr "p") [] (some (pstr "a")) none []]) (pstr "  ") 0 =
    .mk (pstr "div") [] (some (pstr "\n  ")) none
      [.mk (pstr "p") [] (some (pstr "a")) (some (pstr "\n")) []] := by decide

/-- The emission of any element (once options are resolved): opening tag
with escaped attributes, self-closing slash exactly for void tags, text
escaped unless the tag is script/style, children in order, closing tag
exactly for non-void tags, and the tail always escaped. -/
theorem emit_shape (f : Element → PStr) (r : Element) :
    emitWith f r =
      pstr "<" ++ r.tag ++ serializeAttrs r.attrib ++
        (if lower r.tag ∈ TAGS_EMPTY then pstr "/" else []) ++ pstr ">" ++
      (if lower r.tag ∈ TAGS_NOT_ESCAPED then r.text.getD []
       else (r.text.getD []).flatMap escChar) ++
      (r.children.map f).flatten ++
      (if lower r.tag ∉ TAGS_EMPTY then pstr "</" ++ r.tag ++ pstr ">" else []) ++
      (r.tail.getD []).flatMap escChar := by
  cases r with
  | mk t a x l cs =>
    unfold emitWith
    dsimp only [Element.tag, Element.attrib, Element.text, Element.tail, Element.children]
    cases x <;> cases l <;>
      simp [escape_cdata_eq, List.append_assoc]

/-- C1 (amended): for an element whose lowercased tag is in `TAGS_EMPTY`,
`serialize_html` emits a self-closed opening tag (`<tag attrs/>`) and no
closing tag; however the element's text, children and tail — should it,
e.g. by programmatic construction, have any — are emitted after it. -/
theorem C1_empty_tag_serialization (cfg : Config) (e : Element) (i : Option Bool)
    (s : Option PStr) (st : Option Bool) (h : lower e.tag ∈ TAGS_EMPTY) :
    serialize_html cfg e i s st =
      pstr "<" ++ (resolve_tree cfg e i s st).tag ++
        serializeAttrs (resolve_tree cfg e i s st).attrib ++ pstr "/" ++ pstr ">" ++
      (if lower (resolve_tree cfg e i s st).tag ∈ TAGS_NOT_ESCAPED then
        (resolve_tree cfg e i s st).text.getD []
       else ((resolve_tree cfg e i s st).text.getD []).flatMap escChar) ++
      ((resolve_tree cfg e i s st).children.map
        (fun c => serialize_html cfg c none none none)).flatten ++
      ((resolve_tree cfg e i s st).tail.getD []).flatMap escChar := by
  rw [serialize_unfold]
  unfold serializeBody
  rw [emit_shape]
  have htag : lower (resolve_tree cfg e i s st).tag ∈ TAGS_EMPTY := by
    rw [tag_resolve]; exact h
  rw [if_pos htag, if_neg (not_not_intro htag)]
  simp [List.append_assoc]

/-- C1, as stated, is false: a `br` element constructed with text and a
child serializes with that text and child in the output. -/
theorem C1_counterexample :
    serialize_html default_config
        (.mk (pstr "br") [] (some (pstr "x")) none
          [.mk (pstr "span") [] (some (pstr "y")) none []]) none none none =
      pstr "<br/>x<span>y</span>" ∧
    pstr "<br/>x<span>y</span>" ≠ pstr "<br/>" := by decide

theorem C1_witness :
    lower (Element.tag (.mk (pstr "br") [] (some (pstr "x")) none [])) ∈ TAGS_EMPTY ∧
    serialize_html default_config (.mk (pstr "br") [] (some (pstr "x")) none [])
      none none none = pstr "<br/>x" := by
  constructor
  · decide
  · rw [C1_empty_tag_serialization default_config
      (.mk (pstr "br") [] (some (pstr "x")) none []) none none none (by decide)]
    decide

/-- C2: with strip and indent disabled, `serialize_html` escapes `&`, `<`,
`>` in text as `&amp;`, `&lt;`, `&gt;` unless the lowercased tag is in
`TAGS_NOT_ESCAPED` (script, style), in which case the text is verbatim;
attribute values are escaped for `&`, `>`, `"` while `<` is left alone;
and the tail is always escaped like text, even for script/style. -/
theorem C2_escaping (cfg : Config) (sp : Option PStr) (e : Element) :
    (serialize_html cfg e (some false) sp (some false) =
      pstr "<" ++ e.tag ++ serializeAttrs e.attrib ++
        (if lower e.tag ∈ TAGS_EMPTY then pstr "/" else []) ++ pstr ">" ++
      (if lower e.tag ∈ TAGS_NOT_ESCAPED then e.text.getD []
       else (e.text.getD []).flatMap escChar) ++
      (e.children.map (fun c => serialize_html cfg c none none none)).flatten ++
      (if lower e.tag ∉ TAGS_EMPTY then pstr "</" ++ e.tag ++ pstr ">" else []) ++
      (e.tail.getD []).flatMap escChar) ∧
    serializeAttrs e.attrib = (e.attrib.filterMap (fun kv =>
      match kv.2 with
      | .vStr v => some (pstr " " ++ kv.1 ++ pstr "=\"" ++ v.flatMap escAttrChar ++ pstr "\"")
      | .vNone => some (pstr " " ++ kv.1)
      | .vBool b => if b then some (pstr " " ++ kv.1) else none)).flatten ∧
    escAttrChar '<' = pstr "<" ∧ escAttrChar '&' = pstr "&amp;" ∧
    escAttrChar '>' = pstr "&gt;" ∧ escAttrChar '\x22' = pstr "&quot;" ∧
    escChar '&' = pstr "&amp;" ∧ escChar '<' = pstr "&lt;" ∧ escChar '>' = pstr "&gt;" := by
  refine ⟨?_, ?_, rfl, rfl, rfl, rfl, rfl, rfl, rfl⟩
  · rw [serialize_unfold]
    unfold serializeBody
    rw [resolve_id, emit_shape]
  · unfold serializeAttrs
    simp only [escape_attrib_eq]

/-- C3 (amended): the options are resolved against the configuration at the
top of each `serialize_html` call, including the recursive calls for the
children, which pass `None` again; the configuration therefore *is*
consulted again per child. When the configuration's `indent_html` and
`strip_html` defaults are both false, this coincides with resolving once at
the top and serializing all descendants under those resolved values. -/
theorem C3_resolve_once (cfg : Config) (e : Element) (i : Option Bool) (s : Option PStr)
    (st : Option Bool) (h1 : cfg.indent_html = false) (h2 : cfg.strip_html = false) :
    serialize_html cfg e i s st = serialize_once cfg e i s st := by
  rw [serialize_unfold]
  unfold serializeBody serialize_once
  rw [serialize_plain_eq_emit]
  apply emitWith_congr
  intro c _
  exact serialize_noflags cfg h1 h2 c

/-- C3, as stated, is false: with `strip_html = True` in the configuration
and explicit `strip=False`, `indent=False` arguments, the recursive child
calls re-read the configuration and strip the children, so the output
differs from a single top-of-call resolution. -/
theorem C3_counterexample :
    serialize_html ⟨false, pstr "  ", true⟩
        (.mk (pstr "div") [] none none [.mk (pstr "div") [] (some (pstr "  x")) none []])
        (some false) (some (pstr "  ")) (some false) =
      pstr "<div><div>x</div></div>" ∧
    serialize_once ⟨false, pstr "  ", true⟩
        (.mk (pstr "div") [] none none [.mk (pstr "div") [] (some (pstr "  x")) none []])
        (some false) (some (pstr "  ")) (some false) =
      pstr "<div><div>  x</div></div>" ∧
    pstr "<div><div>x</div></div>" ≠ pstr "<div><div>  x</div></div>" := by decide

theorem C3_witness :
    serialize_html default_config
        (.mk (pstr "div") [] none none [.mk (pstr "p") [] (some (pstr " hi ")) none []])
        none none none =
      serialize_once default_config
        (.mk (pstr "div") [] none none [.mk (pstr "p") [] (some (pstr " hi ")) none []])
        none none none :=
  C3_resolve_once default_config
    (.mk (pstr "div") [] none none [.mk (pstr "p") [] (some (pstr " hi ")) none []])
    none none none rfl rfl

theorem dropWhile_idem (p : Char → Bool) : ∀ s : PStr, (s.dropWhile p).dropWhile p = s.dropWhile p := by
  intro s
  induction s with
  | nil => rfl
  | cons a as ih =>
    by_cases h : p a
    · simp [List.dropWhile_cons, h, ih]
    · simp [List.dropWhile_cons, h]

theorem lstrip_idem (s : PStr) : lstrip (lstrip s) = lstrip s := dropWhile_idem _ s

theorem rstrip_idem (s : PStr) : rstrip (rstrip s) = rstrip s := by
  unfold rstrip
  rw [List.reverse_reverse, dropWhile_idem]

theorem rstrip_cons (c : Char) (v : PStr) :
    rstrip (c :: v) =
      if (rstrip v).isEmpty then (if isPyWs c then [] else [c]) else c :: rstrip v := by
  unfold rstrip
  rw [List.reverse_cons, List.dropWhile_append]
  have hiso : (List.dropWhile isPyWs v.reverse).reverse.isEmpty =
      (List.dropWhile isPyWs v.reverse).isEmpty := by
    cases List.dropWhile isPyWs v.reverse <;> simp
  rw [hiso]
  by_cases h : (List.dropWhile isPyWs v.reverse).isEmpty = true
  · rw [if_pos h, if_pos h]
    by_cases hc : isPyWs c = true
    · rw [if_pos hc]
      show (List.dropWhile isPyWs [c]).reverse = []
      simp [List.dropWhile_cons, hc]
    · rw [if_neg hc]
      show (List.dropWhile isPyWs [c]).reverse = [c]
      simp [List.dropWhile_cons, hc]
  · rw [if_neg h, if_neg h, List.reverse_append]
    rfl

theorem not_ws_head_of_lstrip_fix {c : Char} {v : PStr} (h : lstrip (c :: v) = c :: v) :
    isPyWs c = false := by
  by_contra hcon
  simp only [Bool.not_eq_false] at hcon
  simp only [lstrip, List.dropWhile_cons, hcon, if_pos] at h
  have hlen := congrArg List.length h
  have hle := (List.dropWhile_sublist (l := v) isPyWs).length_le
  simp only [List.length_cons] at hlen
  omega

theorem lstrip_rstrip_of_fix : ∀ u : PStr, lstrip u = u → lstrip (rstrip u) = rstrip u := by
  intro u hu
  cases u with
  | nil => rfl
  | cons c v =>
    have hc : isPyWs c = false := not_ws_head_of_lstrip_fix hu
    rw [rstrip_cons]
    split
    · rw [if_neg (by simp [hc])]
      simp [lstrip, List.dropWhile_cons, hc]
    · simp [lstrip, List.dropWhile_cons, hc]

theorem lstrip_rstrip_lstrip (s : PStr) : lstrip (rstrip (lstrip s)) = rstrip (lstrip s) :=
  lstrip_rstrip_of_fix (lstrip s) (lstrip_idem s)

theorem stripTextSpec_idem (x : Option PStr) (nk : Bool) :
    stripTextSpec (stripTextSpec x nk) nk = stripTextSpec x nk := by
  cases x with
  | none => rfl
  | some s =>
    cases nk with
    | false => simp [stripTextSpec, lstrip_idem]
    | true => simp [stripTextSpec, lstrip_rstrip_lstrip, rstrip_idem]

/-- On a block element, `strip_html` normalizes the text as `stripTextSpec`
(left-strip; right-strip when childless), keeps the tail, and recurses. -/
theorem strip_block (t : PStr) (a : List (PStr × AVal)) (x : Option PStr) (l : Option PStr)
    (cs : List Element) (h : ¬(lower t ∈ TAGS_INLINE ∨ lower t ∈ TAGS_PREFORMATTED)) :
    strip_html (.mk t a x l cs) =
      .mk t a (stripTextSpec x cs.isEmpty) l (cs.map strip_html) := by
  unfold strip_html
  rw [if_neg h, stripList_eq_map]
  dsimp only
  simp only [Element.mk.injEq]
  refine ⟨by trivial, by trivial, ?_, by trivial, by trivial⟩
  cases x with
  | none => rfl
  | some s =>
    by_cases hs : s.isEmpty
    · have hs0 : s = [] := by simpa using hs
      subst hs0
      cases hc : cs.isEmpty <;> simp [pyTruthy, stripTextSpec, lstrip, rstrip]
    · by_cases hl : (lstrip s).isEmpty
      · have hl0 : lstrip s = [] := by simpa using hl
        cases hc : cs.isEmpty <;>
          simp [pyTruthy, stripTextSpec, hs, hl0, rstrip]
      · cases hc : cs.isEmpty <;>
          simp [pyTruthy, stripTextSpec, hs, hl]

/-- C4 (amended): for every element `strip_html` leaves the tail unchanged;
for a block element (tag neither inline nor preformatted) the element's own
text is left-stripped, and also right-stripped exactly when the element has
no children. (The claimed tail stripping does not happen, see the
counterexample.) -/
theorem C4_strip_text_tail : ∀ e : Element,
    (strip_html e).tail = e.tail ∧
    (¬(lower e.tag ∈ TAGS_INLINE ∨ lower e.tag ∈ TAGS_PREFORMATTED) →
      (strip_html e).text = stripTextSpec e.text e.children.isEmpty) := by
  intro e
  cases e with
  | mk t a x l cs =>
    by_cases h : lower t ∈ TAGS_INLINE ∨ lower t ∈ TAGS_PREFORMATTED
    · rw [strip_copy _ (by simpa [Element.tag] using h)]
      exact ⟨rfl, fun hc => absurd h (by simpa [Element.tag] using hc)⟩
    · rw [strip_block t a x l cs h]
      exact ⟨rfl, fun _ => rfl⟩

/-- C4, as stated, is false: the tail of a (last) child is returned with its
leading and trailing whitespace intact — `strip_html` never strips tails. -/
theorem C4_counterexample :
    (strip_html (.mk (pstr "div") [] none none
        [.mk (pstr "div") [] (some (pstr "y")) (some (pstr "  x  ")) []])).children.map
      Element.tail = [some (pstr "  x  ")] ∧
    rstrip (pstr "  x  ") ≠ pstr "  x  " ∧ lstrip (pstr "  x  ") ≠ pstr "  x  " := by decide

theorem C4_witness :
    (strip_html (.mk (pstr "div") [] (some (pstr "  w  ")) (some (pstr " t ")) [])).tail =
      some (pstr " t ") ∧
    (strip_html (.mk (pstr "div") [] (some (pstr "  w  ")) (some (pstr " t ")) [])).text =
      stripTextSpec (some (pstr "  w  ")) true := by
  have h := C4_strip_text_tail (.mk (pstr "div") [] (some (pstr "  w  ")) (some (pstr " t ")) [])
  exact ⟨h.1, h.2 (by decide)⟩

/-- C5 (amended): a childless element is returned unchanged by `indent_html`
when its tag is inline or preformatted, or its text is `None`, or its text
is nonempty with no leading whitespace and no newline. (Otherwise the text
is normalized, see the counterexample.) -/
theorem C5_no_children (e : Element) (sp : PStr) (lv : Nat)
    (h1 : e.children = [])
    (h2 : (lower e.tag ∈ TAGS_INLINE ∨ lower e.tag ∈ TAGS_PREFORMATTED) ∨
          e.text = none ∨
          (∃ s, e.text = some s ∧ s ≠ [] ∧ lstrip s = s ∧ s.contains '\n' = false)) :
    indent_html e sp lv = e := by
  cases e with
  | mk t a x l cs =>
    simp only [Element.children] at h1
    subst h1
    by_cases hm : lower t ∈ TAGS_PREFORMATTED ∨ lower t ∈ TAGS_INLINE
    · exact indent_copy _ sp lv (by simpa [Element.tag] using hm)
    · unfold indent_html
      rw [if_neg hm]
      rcases h2 with h2 | h2 | ⟨s, hx, hne, hls, hnl⟩
      · exact absurd (Or.symm (by simpa [Element.tag] using h2)) hm
      · simp only [Element.text] at h2
        subst h2
        rfl
      · simp only [Element.text] at hx
        subst hx
        have hsne : s.isEmpty = false := by simpa using hne
        have hmem : ('\n' : Char) ∉ s := by
          intro hm2
          have h3 : List.contains s '\n' = true := List.elem_iff.mpr hm2
          rw [h3] at hnl
          exact absurd hnl (by decide)
        dsimp only
        simp [pyTruthy, hsne, hls, hmem, indent_html.indentChildren]

/-- C5, as stated, is false: a childless `div` whose text has leading
whitespace comes back from `indent_html` with the text left-stripped. -/
theorem C5_counterexample :
    indent_html (.mk (pstr "div") [] (some (pstr "  x")) none []) (pstr "  ") 0 =
      .mk (pstr "div") [] (some (pstr "x")) none [] ∧
    (Element.mk (pstr "div") [] (some (pstr "x")) none []) ≠
      .mk (pstr "div") [] (some (pstr "  x")) none [] := by decide

theorem C5_witness :
    indent_html (.mk (pstr "div") [] (some (pstr "hi")) (some (pstr "  ")) []) (pstr "  ") 0 =
      .mk (pstr "div") [] (some (pstr "hi")) (some (pstr "  ")) [] :=
  C5_no_children _ _ _ rfl
    (Or.inr (Or.inr ⟨pstr "hi", rfl, by decide, by decide, by decide⟩))

/-- C6: a subtree rooted at a preformatted tag (`pre`) is returned
structurally unchanged — with the original child subtrees — by both
`indent_html` and `strip_html`. -/
theorem C6_preformatted (e : Element) (sp : PStr) (lv : Nat)
    (h : lower e.tag ∈ TAGS_PREFORMATTED) :
    indent_html e sp lv = e ∧ strip_html e = e :=
  ⟨indent_copy e sp lv (Or.inl h), strip_copy e (Or.inr h)⟩

theorem C6_witness :
    indent_html (.mk (pstr "pre") [] (some (pstr "\n")) none
        [.mk (pstr "code") [] (some (pstr " spaced  ")) (some (pstr "\n")) []]) (pstr "  ") 0 =
      .mk (pstr "pre") [] (some (pstr "\n")) none
        [.mk (pstr "code") [] (some (pstr " spaced  ")) (some (pstr "\n")) []] ∧
    strip_html (.mk (pstr "pre") [] (some (pstr "\n")) none
        [.mk (pstr "code") [] (some (pstr " spaced  ")) (some (pstr "\n")) []]) =
      .mk (pstr "pre") [] (some (pstr "\n")) none
        [.mk (pstr "code") [] (some (pstr " spaced  ")) (some (pstr "\n")) []] :=
  C6_preformatted _ _ _ (by decide)

/-- C7: `strip_html` is idempotent: stripping a stripped tree changes
nothing. -/
theorem C7_strip_idempotent : ∀ e : Element, strip_html (strip_html e) = strip_html e := by
  refine element_ind _ ?_
  intro t a x l cs ih
  by_cases h : lower t ∈ TAGS_INLINE ∨ lower t ∈ TAGS_PREFORMATTED
  · rw [strip_copy (.mk t a x l cs) (by simpa [Element.tag] using h),
      strip_copy (.mk t a x l cs) (by simpa [Element.tag] using h)]
  · rw [strip_block t a x l cs h, strip_block t a _ l _ h]
    have hemp : (cs.map strip_html).isEmpty = cs.isEmpty := by cases cs <;> rfl
    simp only [Element.mk.injEq]
    refine ⟨by trivial, by trivial, ?_, by trivial, ?_⟩
    · rw [hemp, stripTextSpec_idem]
    · rw [List.map_map]
      exact List.map_congr_left (fun c hc => ih c hc)

/-- C10: an element whose lowercased tag is inline or preformatted is
returned with identical tag, attributes, text and tail, and with exactly
the original child subtrees, by both `indent_html` and `strip_html`:
neither function recurses into it, so whitespace in any descendant —
including block-level descendants — is untouched. -/
theorem C10_inline_pre_copy (e : Element) (sp : PStr) (lv : Nat)
    (h : lower e.tag ∈ TAGS_INLINE ∨ lower e.tag ∈ TAGS_PREFORMATTED) :
    indent_html e sp lv = e ∧ strip_html e = e :=
  ⟨indent_copy e sp lv (Or.symm h), strip_copy e h⟩

theorem C10_witness :
    indent_html (.mk (pstr "span") [] (some (pstr "  a\n")) none
        [.mk (pstr "div") [] (some (pstr "   block   ")) (some (pstr "  t  ")) []]) (pstr "  ") 0 =
      .mk (pstr "span") [] (some (pstr "  a\n")) none
        [.mk (pstr "div") [] (some (pstr "   block   ")) (some (pstr "  t  ")) []] ∧
    strip_html (.mk (pstr "span") [] (some (pstr "  a\n")) none
        [.mk (pstr "div") [] (some (pstr "   block   ")) (some (pstr "  t  ")) []]) =
      .mk (pstr "span") [] (some (pstr "  a\n")) none
        [.mk (pstr "div") [] (some (pstr "   block   ")) (some (pstr "  t  ")) []] :=
  C10_inline_pre_copy _ _ _ (by decide)

theorem isEmpty_reverse (l : List Element) : l.reverse.isEmpty = l.isEmpty := by
  cases l with
  | nil => rfl
  | cons a as =>
    simp [List.reverse_cons]

theorem voidOkB_mk (t : PStr) (a : List (PStr × AVal)) (x l : Option PStr) (cs : List Element) :
    voidOkB (.mk t a x l cs) =
      ((if lower t ∈ TAGS_EMPTY then cs.isEmpty && x.isNone else true) && cs.all voidOkB) := by
  show ((if lower t ∈ TAGS_EMPTY then cs.isEmpty && x.isNone else true) &&
    voidOkB.voidOkList cs) = _
  rw [voidOkList_eq]

theorem voidOkB_setTail (c : Element) (t : Option PStr) : voidOkB (setTail c t) = voidOkB c := by
  cases c
  rfl

theorem bend_inv_core (b b2 : Builder) (tag : PStr) (f : Frame) (fs : List Frame)
    (hb : b.stack = f :: fs) (h : bend b tag = some b2)
    (hstack : stackOk b) (hres : resultOk b)
    (htopif : (if lower f.ftag ∈ TAGS_EMPTY then f.childrenRev.isEmpty && f.ftext.isNone
               else true) = true)
    (hrest : framesNonVoid fs) :
    stackOk b2 ∧ resultOk b2 ∧ framesNonVoid b2.stack := by
  have helem : voidOkB (Element.mk f.ftag f.fattrib f.ftext none f.childrenRev.reverse) = true := by
    rw [voidOkB_mk, Bool.and_eq_true]
    constructor
    · rw [isEmpty_reverse]
      exact htopif
    · rw [List.all_eq_true]
      intro c hc
      exact hstack f (by rw [hb]; exact List.mem_cons_self f fs) c (List.mem_reverse.mp hc)
  unfold bend at h
  rw [hb] at h
  dsimp only at h
  split at h
  · cases fs with
    | nil =>
      simp only [Option.some.injEq] at h
      subst h
      refine ⟨?_, ?_, ?_⟩
      · intro g hg
        exact absurd hg (by intro hh; exact (List.not_mem_nil g) hh)
      · intro r hr
        simp only [Option.some.injEq] at hr
        rw [← hr]
        exact helem
      · intro g hg
        exact absurd hg (by intro hh; exact (List.not_mem_nil g) hh)
    | cons g gs =>
      simp only [Option.some.injEq] at h
      subst h
      refine ⟨?_, ?_, ?_⟩
      · intro g2 hg2 c hc
        rcases List.mem_cons.mp hg2 with rfl | hmem
        · rcases List.mem_cons.mp hc with rfl | hc2
          · exact helem
          · exact hstack g
              (by rw [hb]; exact List.mem_cons_of_mem f (List.mem_cons_self g gs)) c hc2
        · exact hstack g2
            (by rw [hb]; exact List.mem_cons_of_mem f (List.mem_cons_of_mem g hmem)) c hc
      · intro r hr
        exact hres r hr
      · intro g2 hg2
        rcases List.mem_cons.mp hg2 with rfl | hmem
        · exact hrest g (List.mem_cons_self g gs)
        · exact hrest g2 (List.mem_cons_of_mem g hmem)
  · exact absurd h (by simp)

theorem pinv_none (b : Builder) (h1 : stackOk b) (h2 : resultOk b)
    (h3 : framesNonVoid b.stack) : PInv { builder := b, emptyTag := none } :=
  ⟨h1, h2, h3⟩

theorem bstart_inv (b : Builder) (tag : PStr) (av : List (PStr × AVal))
    (hstack : stackOk b) (hres : resultOk b) (hframes : framesNonVoid b.stack) :
    PInv { builder := bstart b tag av,
           emptyTag := if lower tag ∈ TAGS_EMPTY then some tag else none } := by
  refine ⟨?_, ?_, ?_⟩
  · intro f hf c hc
    rcases List.mem_cons.mp hf with rfl | hmem
    · exact absurd hc (by intro hh; exact (List.not_mem_nil c) hh)
    · exact hstack f hmem c hc
  · exact hres
  · by_cases hmem : lower tag ∈ TAGS_EMPTY
    · simp only [if_pos hmem]
      exact ⟨⟨tag, av, none, []⟩, b.stack, rfl, rfl, rfl, rfl, hframes⟩
    · simp only [if_neg hmem]
      intro g hg
      rcases List.mem_cons.mp hg with rfl | hmem2
      · exact hmem
      · exact hframes g hmem2

theorem bdata_inv : ∀ (b : Builder) (s : PStr), stackOk b → resultOk b →
    framesNonVoid b.stack →
    stackOk (bdata b s) ∧ resultOk (bdata b s) ∧ framesNonVoid (bdata b s).stack := by
  rintro ⟨bstack, bres, btail⟩ s hstack hres hframes
  cases bstack with
  | nil => exact ⟨hstack, hres, hframes⟩
  | cons f rest =>
    obtain ⟨ftg, fat, ftx, fch⟩ := f
    have htext : ∀ t2 : Option PStr,
        stackOk ⟨(⟨ftg, fat, t2, fch⟩ : Frame) :: rest, bres, btail⟩ ∧
        resultOk ⟨(⟨ftg, fat, t2, fch⟩ : Frame) :: rest, bres, btail⟩ ∧
        framesNonVoid ((⟨ftg, fat, t2, fch⟩ : Frame) :: rest) := by
      intro t2
      refine ⟨?_, hres, ?_⟩
      · intro g hg c hc
        rcases List.mem_cons.mp hg with rfl | hmem
        · exact hstack ⟨ftg, fat, ftx, fch⟩ (List.mem_cons_self _ rest) c hc
        · exact hstack g (List.mem_cons_of_mem _ hmem) c hc
      · intro g hg
        rcases List.mem_cons.mp hg with rfl | hmem
        · exact hframes ⟨ftg, fat, ftx, fch⟩ (List.mem_cons_self _ rest)
        · exact hframes g (List.mem_cons_of_mem _ hmem)
    cases btail with
    | false => exact htext _
    | true =>
      cases fch with
      | nil => exact htext _
      | cons c cs =>
        refine ⟨?_, hres, ?_⟩
        · intro g hg c2 hc2
          rcases List.mem_cons.mp hg with rfl | hmem
          · rcases List.mem_cons.mp hc2 with rfl | hc3
            · rw [voidOkB_setTail]
              exact hstack ⟨ftg, fat, ftx, c :: cs⟩ (List.mem_cons_self _ rest) c
                (List.mem_cons_self c cs)
            · exact hstack ⟨ftg, fat, ftx, c :: cs⟩ (List.mem_cons_self _ rest) c2
                (List.mem_cons_of_mem c hc3)
          · exact hstack g (List.mem_cons_of_mem _ hmem) c2 hc2
        · intro g hg
          rcases List.mem_cons.mp hg with rfl | hmem
          · exact hframes ⟨ftg, fat, ftx, c :: cs⟩ (List.mem_cons_self _ rest)
          · exact hframes g (List.mem_cons_of_mem _ hmem)

theorem handle_starttag_inv (st st2 : PState) (tag : PStr)
    (attrs : List (PStr × Option PStr))
    (h : handle_starttag st tag attrs = some st2) (hinv : PInv st) : PInv st2 := by
  obtain ⟨hstack, hres, hpend⟩ := hinv
  unfold handle_starttag at h
  cases het : st.emptyTag with
  | none =>
    rw [het] at h
    dsimp only at h
    simp only [Option.bind_eq_bind, Option.some_bind, Option.some.injEq] at h
    rw [het] at hpend
    subst h
    exact bstart_inv st.builder tag (attrsToAVal (dictOf attrs)) hstack hres hpend
  | some t =>
    rw [het] at h
    dsimp only at h
    rw [het] at hpend
    obtain ⟨f, fs, hbstack, hftag, hfch, hftext, hfs⟩ := hpend
    cases hbe : bend st.builder t with
    | none =>
      rw [hbe] at h
      simp only [Option.bind_eq_bind, Option.none_bind] at h
      exact Option.noConfusion h
    | some b1 =>
      rw [hbe] at h
      simp only [Option.bind_eq_bind, Option.some_bind, Option.some.injEq] at h
      subst h
      obtain ⟨s1, s2, s3⟩ := bend_inv_core st.builder b1 t f fs hbstack hbe hstack hres
        (by rw [hfch, hftext]; split <;> rfl) hfs
      exact bstart_inv b1 tag (attrsToAVal (dictOf attrs)) s1 s2 s3

theorem handle_data_inv (st st2 : PState) (s : PStr)
    (h : handle_data st s = some st2) (hinv : PInv st) : PInv st2 := by
  obtain ⟨hstack, hres, hpend⟩ := hinv
  unfold handle_data at h
  cases het : st.emptyTag with
  | none =>
    rw [het] at h
    dsimp only at h
    simp only [Option.bind_eq_bind, Option.some_bind, Option.some.injEq] at h
    rw [het] at hpend
    subst h
    obtain ⟨d1, d2, d3⟩ := bdata_inv st.builder s hstack hres hpend
    exact pinv_none _ d1 d2 d3
  | some t =>
    rw [het] at h
    dsimp only at h
    rw [het] at hpend
    obtain ⟨f, fs, hbstack, hftag, hfch, hftext, hfs⟩ := hpend
    cases hbe : bend st.builder t with
    | none =>
      rw [hbe] at h
      simp only [Option.bind_eq_bind, Option.none_bind] at h
      exact Option.noConfusion h
    | some b1 =>
      rw [hbe] at h
      simp only [Option.bind_eq_bind, Option.some_bind, Option.some.injEq] at h
      subst h
      obtain ⟨s1, s2, s3⟩ := bend_inv_core st.builder b1 t f fs hbstack hbe hstack hres
        (by rw [hfch, hftext]; split <;> rfl) hfs
      obtain ⟨d1, d2, d3⟩ := bdata_inv b1 s s1 s2 s3
      exact pinv_none _ d1 d2 d3

theorem handle_endtag_inv (st st2 : PState) (tag : PStr)
    (h : handle_endtag st tag = some st2) (hinv : PInv st) : PInv st2 := by
  obtain ⟨hstack, hres, hpend⟩ := hinv
  unfold handle_endtag at h
  cases het : st.emptyTag with
  | none =>
    rw [het] at h
    dsimp only at h
    simp only [Option.bind_eq_bind, Option.some_bind] at h
    rw [het] at hpend
    cases hbe : bend st.builder tag with
    | none =>
      rw [hbe] at h
      simp only [Option.bind_eq_bind, Option.none_bind] at h
      exact Option.noConfusion h
    | some b2 =>
      rw [hbe] at h
      simp only [Option.bind_eq_bind, Option.some_bind, Option.some.injEq] at h
      subst h
      cases hstk : st.builder.stack with
      | nil =>
        rw [bend, hstk] at hbe
        exact absurd hbe (by simp)
      | cons f fs =>
        have hfnv : lower f.ftag ∉ TAGS_EMPTY :=
          hpend f (by rw [hstk]; exact List.mem_cons_self f fs)
        obtain ⟨s1, s2, s3⟩ := bend_inv_core st.builder b2 tag f fs hstk hbe hstack hres
          (by rw [if_neg hfnv]) (fun g hg => hpend g (by rw [hstk]; exact List.mem_cons_of_mem f hg))
        exact pinv_none _ s1 s2 s3
  | some t =>
    rw [het] at h
    dsimp only at h
    rw [het] at hpend
    obtain ⟨f, fs, hbstack, hftag, hfch, hftext, hfs⟩ := hpend
    by_cases hlt : lower t ≠ lower tag
    · rw [if_pos hlt] at h
      cases hbe : bend st.builder t with
      | none =>
        rw [hbe] at h
        simp only [Option.bind_eq_bind, Option.none_bind] at h
        exact Option.noConfusion h
      | some b1 =>
        rw [hbe] at h
        simp only [Option.bind_eq_bind, Option.some_bind] at h
        obtain ⟨s1, s2, s3⟩ := bend_inv_core st.builder b1 t f fs hbstack hbe hstack hres
          (by rw [hfch, hftext]; split <;> rfl) hfs
        cases hbe2 : bend b1 tag with
        | none =>
          rw [hbe2] at h
          simp only [Option.bind_eq_bind, Option.none_bind] at h
          exact Option.noConfusion h
        | some b2 =>
          rw [hbe2] at h
          simp only [Option.bind_eq_bind, Option.some_bind, Option.some.injEq] at h
          subst h
          cases hstk1 : b1.stack with
          | nil =>
            rw [bend, hstk1] at hbe2
            exact absurd hbe2 (by simp)
          | cons f1 fs1 =>
            have hfnv : lower f1.ftag ∉ TAGS_EMPTY :=
              s3 f1 (by rw [hstk1]; exact List.mem_cons_self f1 fs1)
            obtain ⟨u1, u2, u3⟩ := bend_inv_core b1 b2 tag f1 fs1 hstk1 hbe2 s1 s2
              (by rw [if_neg hfnv])
              (fun g hg => s3 g (by rw [hstk1]; exact List.mem_cons_of_mem f1 hg))
            exact pinv_none _ u1 u2 u3
    · rw [if_neg hlt] at h
      simp only [Option.bind_eq_bind, Option.some_bind] at h
      cases hbe : bend st.builder tag with
      | none =>
        rw [hbe] at h
        simp only [Option.bind_eq_bind, Option.none_bind] at h
        exact Option.noConfusion h
      | some b2 =>
        rw [hbe] at h
        simp only [Option.bind_eq_bind, Option.some_bind, Option.some.injEq] at h
        subst h
        obtain ⟨s1, s2, s3⟩ := bend_inv_core st.builder b2 tag f fs hbstack hbe hstack hres
          (by rw [hfch, hftext]; split <;> rfl) hfs
        exact pinv_none _ s1 s2 s3

theorem handleEvent_inv (st st2 : PState) (ev : Event)
    (h : handleEvent st ev = some st2) (hinv : PInv st) : PInv st2 := by
  cases ev with
  | startTag t attrs => exact handle_starttag_inv st st2 t attrs h hinv
  | endTag t => exact handle_endtag_inv st st2 t h hinv
  | chardata s => exact handle_data_inv st st2 s h hinv

theorem feed_inv : ∀ (evs : List Event) (st st2 : PState),
    evs.foldlM handleEvent st = some st2 → PInv st → PInv st2
  | [], st, st2, h, hinv => by
    simp only [List.foldlM_nil, Option.pure_def, Option.some.injEq] at h
    subst h
    exact hinv
  | ev :: evs, st, st2, h, hinv => by
    rw [List.foldlM_cons] at h
    cases hh : handleEvent st ev with
    | none =>
      rw [hh] at h
      simp only [Option.bind_eq_bind, Option.none_bind] at h
      exact Option.noConfusion h
    | some s1 =>
      rw [hh] at h
      simp only [Option.bind_eq_bind, Option.some_bind] at h
      exact feed_inv evs s1 st2 h (handleEvent_inv st s1 ev hh hinv)

theorem pclose_inv (st : PState) (forest : List Element) (h : pclose st = some forest)
    (hinv : PInv st) : ∀ e ∈ forest, voidOkB e = true := by
  obtain ⟨hstack, hres, hpend⟩ := hinv
  unfold pclose at h
  cases hbe : bend st.builder (pstr "root") with
  | none =>
    rw [hbe] at h
    simp only [Option.bind_eq_bind, Option.none_bind] at h
    exact Option.noConfusion h
  | some b2 =>
    rw [hbe] at h
    simp only [Option.bind_eq_bind, Option.some_bind] at h
    cases hstk : st.builder.stack with
    | nil =>
      rw [bend, hstk] at hbe
      exact absurd hbe (by simp)
    | cons f fs =>
      have hcore : stackOk b2 ∧ resultOk b2 ∧ framesNonVoid b2.stack := by
        cases het : st.emptyTag with
        | none =>
          rw [het] at hpend
          exact bend_inv_core st.builder b2 (pstr "root") f fs hstk hbe hstack hres
            (by rw [if_neg (hpend f (by rw [hstk]; exact List.mem_cons_self f fs))])
            (fun g hg => hpend g (by rw [hstk]; exact List.mem_cons_of_mem f hg))
        | some t =>
          rw [het] at hpend
          obtain ⟨f2, fs2, hbstack, hftag, hfch, hftext, hfs⟩ := hpend
          rw [hstk] at hbstack
          injection hbstack with hf2 hfs2
          subst hf2
          subst hfs2
          exact bend_inv_core st.builder b2 (pstr "root") f fs hstk hbe hstack hres
            (by rw [hfch, hftext]; split <;> rfl) hfs
      obtain ⟨s1, s2, s3⟩ := hcore
      cases hb2s : b2.stack with
      | cons _ _ =>
        rw [hb2s] at h
        dsimp only at h
        exact Option.noConfusion h
      | nil =>
        cases hb2r : b2.result with
        | none =>
          rw [hb2s, hb2r] at h
          dsimp only at h
          exact Option.noConfusion h
        | some root =>
          rw [hb2s, hb2r] at h
          dsimp only at h
          simp only [Option.some.injEq] at h
          subst h
          have hok := s2 root hb2r
          cases root with
          | mk rt ra rx rl rcs =>
            rw [voidOkB_mk, Bool.and_eq_true, List.all_eq_true] at hok
            intro e he
            exact hok.2 e he

/-- C9: for any event sequence accepted by the parser (and hence for any
successfully parsed HTML string), every element of the returned forest —
recursively at every depth — that has a lowercased tag in `TAGS_EMPTY` has
no children and no text: a pending void element is implicitly closed before
the next start tag, before character data, and before a foreign end tag. -/
theorem C9_void_invariant :
    (∀ evs forest, parse_events evs = some forest → ∀ e ∈ forest, voidOkB e = true) ∧
    (∀ s forest, parse_html s = some forest → ∀ e ∈ forest, voidOkB e = true) := by
  have hinit : PInv initState := by
    refine ⟨?_, ?_, ?_⟩
    · intro f hf c hc
      rcases List.mem_singleton.mp hf with rfl
      exact absurd hc (by intro hh; exact (List.not_mem_nil c) hh)
    · intro r hr
      exact absurd hr (by simp [initState])
    · intro g hg
      rcases List.mem_singleton.mp hg with rfl
      decide
  have hmain : ∀ evs forest, parse_events evs = some forest →
      ∀ e ∈ forest, voidOkB e = true := by
    intro evs forest h
    unfold parse_events at h
    cases hf : evs.foldlM handleEvent initState with
    | none =>
      rw [hf] at h
      simp only [Option.bind_eq_bind, Option.none_bind] at h
      exact Option.noConfusion h
    | some st =>
      rw [hf] at h
      simp only [Option.bind_eq_bind, Option.some_bind] at h
      exact pclose_inv st forest h (feed_inv evs initState st hf hinit)
  exact ⟨hmain, fun s forest h => hmain _ forest h⟩

theorem C9_witness :
    parse_events [.startTag (pstr "p") [], .startTag (pstr "br") [],
      .chardata (pstr "x"), .endTag (pstr "p")] =
      some [.mk (pstr "p") [] none none [.mk (pstr "br") [] none (some (pstr "x")) []]] ∧
    voidOkB (.mk (pstr "p") [] none none
      [.mk (pstr "br") [] none (some (pstr "x")) []]) = true := by
  constructor
  · decide
  · exact C9_void_invariant.1
      [.startTag (pstr "p") [], .startTag (pstr "br") [],
        .chardata (pstr "x"), .endTag (pstr "p")]
      [.mk (pstr "p") [] none none [.mk (pstr "br") [] none (some (pstr "x")) []]]
      (by decide) _ (by simp)

theorem nameChar_not_ws {c : Char} (h : isNameChar c = true) : isPyWs c = false := by
  by_contra hcon
  simp only [Bool.not_eq_false] at hcon
  simp only [isPyWs, Bool.or_eq_true, decide_eq_true_eq] at hcon
  rcases hcon with ((((rfl | rfl) | rfl) | rfl) | rfl) | rfl <;> simp [isNameChar] at h

theorem tokenizeF_nil : ∀ n, tokenizeF n [] = []
  | 0 => rfl
  | _ + 1 => rfl

theorem dropWhile_cons_of_head_false (p : Char → Bool) (c : Char) (l : PStr)
    (h : p c = false) : (c :: l).dropWhile p = c :: l := by
  simp [List.dropWhile_cons, h]

theorem takeWhile_append_of_all (p : Char → Bool) : ∀ (l1 l2 : PStr),
    (∀ c ∈ l1, p c = true) → (l1 ++ l2).takeWhile p = l1 ++ l2.takeWhile p
  | [], _, _ => rfl
  | c :: l1, l2, h => by
    simp only [List.cons_append, List.takeWhile_cons, h c (List.mem_cons_self c l1), if_pos]
    rw [takeWhile_append_of_all p l1 l2 (fun d hd => h d (List.mem_cons_of_mem c hd))]

theorem dropWhile_append_of_all (p : Char → Bool) : ∀ (l1 l2 : PStr),
    (∀ c ∈ l1, p c = true) → (l1 ++ l2).dropWhile p = l2.dropWhile p
  | [], _, _ => rfl
  | c :: l1, l2, h => by
    simp only [List.cons_append, List.dropWhile_cons, h c (List.mem_cons_self c l1), if_pos]
    exact dropWhile_append_of_all p l1 l2 (fun d hd => h d (List.mem_cons_of_mem c hd))

theorem tokAttrs_bare : ∀ (fuel : Nat) (s k rest : PStr) (acc : List (PStr × Option PStr)),
    s.dropWhile isPyWs = k ++ '>' :: rest → k ≠ [] → (∀ c ∈ k, isNameChar c = true) →
    2 ≤ fuel →
    tokAttrs fuel s acc = (((lower k, none) :: acc).reverse, false, rest) := by
  intro fuel s k rest acc hs hk hname hfuel
  obtain ⟨f1, rfl⟩ : ∃ f1, fuel = f1 + 1 := ⟨fuel - 1, by omega⟩
  obtain ⟨c, k', rfl⟩ : ∃ c k', k = c :: k' := by
    cases k with
    | nil => exact absurd rfl hk
    | cons c k' => exact ⟨c, k', rfl⟩
  have hc : isNameChar c = true := hname c (List.mem_cons_self c k')
  have hgt : c ≠ '>' := by intro hh; subst hh; simp [isNameChar] at hc
  have hsl : c ≠ '/' := by intro hh; subst hh; simp [isNameChar] at hc
  rw [tokAttrs, hs]
  split
  · rename_i x heq
    exact absurd heq (by simp)
  · rename_i x r2 heq
    rw [List.cons_append] at heq
    injection heq with h1 h2
    exact absurd h1 hgt
  · rename_i x r2 heq
    rw [List.cons_append] at heq
    injection heq with h1 h2
    exact absurd h1 hsl
  · have htake : List.takeWhile isNameChar (c :: k' ++ '>' :: rest) = c :: k' := by
      rw [show c :: k' ++ '>' :: rest = (c :: k') ++ '>' :: rest from rfl,
        takeWhile_append_of_all isNameChar (c :: k') ('>' :: rest) hname]
      simp [List.takeWhile_cons, isNameChar]
    have hdrop : List.dropWhile isNameChar (c :: k' ++ '>' :: rest) = '>' :: rest := by
      rw [show c :: k' ++ '>' :: rest = (c :: k') ++ '>' :: rest from rfl,
        dropWhile_append_of_all isNameChar (c :: k') ('>' :: rest) hname]
      simp [List.dropWhile_cons, isNameChar]
    rw [htake, hdrop]
    rw [if_neg (by simp)]
    show tokAttrs f1 ('>' :: rest) ((lower (c :: k'), none) :: acc) =
      (((lower (c :: k'), none) :: acc).reverse, false, rest)
    obtain ⟨f2, rfl⟩ : ∃ f2, f1 = f2 + 1 := ⟨f1 - 1, by omega⟩
    rw [tokAttrs.eq_def]
    dsimp only
    rw [dropWhile_cons_of_head_false isPyWs '>' rest (by decide)]
    rfl
theorem tokenize_div_bare (k : PStr) (hk : k ≠ []) (hname : ∀ c ∈ k, isNameChar c = true) :
    tokenizeF (pstr "<div " ++ k ++ pstr "></div>").length (pstr "<div " ++ k ++ pstr "></div>") =
      [.startTag (pstr "div") [(lower k, none)], .endTag (pstr "div")] := by
  obtain ⟨c, k', rfl⟩ : ∃ c k', k = c :: k' := by
    cases k with
    | nil => exact absurd rfl hk
    | cons c k' => exact ⟨c, k', rfl⟩
  have hlen : (pstr "<div " ++ (c :: k') ++ pstr "></div>").length = k'.length + 13 := by
    simp [pstr]
  rw [hlen]
  rw [show pstr "<div " ++ (c :: k') ++ pstr "></div>" =
    '<' :: 'd' :: 'i' :: 'v' :: ' ' :: ((c :: k') ++ pstr "></div>") from rfl]
  have e1 : tokenizeF (k'.length + 13)
      ('<' :: 'd' :: 'i' :: 'v' :: ' ' :: ((c :: k') ++ pstr "></div>")) =
      (let res := tokAttrs (('d' :: 'i' :: 'v' :: ' ' :: ((c :: k') ++ pstr "></div>")).length)
          (' ' :: ((c :: k') ++ pstr "></div>")) []
       if res.2.1 then
         .startTag (pstr "div") res.1 :: .endTag (pstr "div") ::
           tokenizeF (k'.length + 12) res.2.2
       else .startTag (pstr "div") res.1 :: tokenizeF (k'.length + 12) res.2.2) := rfl
  rw [e1]
  have hres : tokAttrs (('d' :: 'i' :: 'v' :: ' ' :: ((c :: k') ++ pstr "></div>")).length)
      (' ' :: ((c :: k') ++ pstr "></div>")) [] =
      ([(lower (c :: k'), none)], false, pstr "</div>") := by
    have hs2 : (' ' :: ((c :: k') ++ pstr "></div>")).dropWhile isPyWs =
        (c :: k') ++ '>' :: pstr "</div>" := by
      rw [List.dropWhile_cons, if_pos (by decide),
        show (c :: k') ++ pstr "></div>" = c :: (k' ++ pstr "></div>") from rfl,
        dropWhile_cons_of_head_false isPyWs c (k' ++ pstr "></div>")
          (nameChar_not_ws (hname c (List.mem_cons_self c k')))]
      rfl
    rw [tokAttrs_bare _ _ (c :: k') (pstr "</div>") [] hs2 hk hname (by simp)]
    rfl
  rw [hres]
  dsimp only
  rw [if_neg (by decide)]
  have e2 : tokenizeF (k'.length + 12) (pstr "</div>") =
      .endTag (pstr "div") :: tokenizeF (k'.length + 11) [] := rfl
  rw [e2, tokenizeF_nil]

/-- Re-parsing a serialized bare attribute: for every nonempty attribute
name made of name characters, `<div k></div>` parses back to a `div`
element whose single attribute carries the `None` sentinel (the name
lowercased, as `html.parser` does). -/
theorem parse_div_bare (k : PStr) (hk : k ≠ []) (hname : ∀ c ∈ k, isNameChar c = true) :
    parse_html (pstr "<div " ++ k ++ pstr "></div>") =
      some [.mk (pstr "div") [(lower k, AVal.vNone)] none none []] := by
  unfold parse_html
  rw [tokenize_div_bare k hk hname]
  rfl

theorem serializeAttrs_append (a1 a2 : List (PStr × AVal)) :
    serializeAttrs (a1 ++ a2) = serializeAttrs a1 ++ serializeAttrs a2 := by
  simp [serializeAttrs, List.filterMap_append]

theorem serializeAttrs_vNone (k : PStr) : serializeAttrs [(k, AVal.vNone)] = pstr " " ++ k := by
  simp [serializeAttrs]

theorem serializeAttrs_vTrue (k : PStr) :
    serializeAttrs [(k, AVal.vBool true)] = pstr " " ++ k := by
  simp [serializeAttrs]

theorem serializeAttrs_vFalse (k : PStr) : serializeAttrs [(k, AVal.vBool false)] = [] := by
  simp [serializeAttrs]

theorem resolve_attrs_div (cfg : Config) (a : List (PStr × AVal)) (i : Option Bool)
    (s : Option PStr) (st : Option Bool) :
    resolve_tree cfg (.mk (pstr "div") a none none []) i s st =
      .mk (pstr "div") a none none [] := by
  have hstrip : strip_html (.mk (pstr "div") a none none []) =
      .mk (pstr "div") a none none [] := by
    unfold strip_html
    rw [if_neg (by decide)]
    rfl
  have hindent : ∀ sp lv, indent_html (.mk (pstr "div") a none none []) sp lv =
      .mk (pstr "div") a none none [] := by
    intro sp lv
    unfold indent_html
    rw [if_neg (by decide)]
    rfl
  unfold resolve_tree
  dsimp only
  split <;> split <;> simp [hstrip, hindent]

/-- C8: boolean/valueless attribute handling, for every attribute name `k`,
every surrounding attribute context `a1`/`a2`, and every configuration:
an attribute with the `None` sentinel contributes exactly the bare ` k` to
the attribute string, as does one with value `True`, while a `False`-valued
attribute contributes nothing; consequently `serialize_html` output is
identical for `None` and `True` values and drops `False`-valued attributes
entirely; a bare attribute renders as `<div k></div>` for every name; and
re-parsing the serialized bare attribute restores the same `None` sentinel
for every well-formed attribute name. -/
theorem C8_bool_attr_roundtrip :
    (∀ (k : PStr) (a1 a2 : List (PStr × AVal)),
      serializeAttrs (a1 ++ (k, AVal.vNone) :: a2) =
        serializeAttrs a1 ++ (pstr " " ++ k) ++ serializeAttrs a2 ∧
      serializeAttrs (a1 ++ (k, AVal.vBool true) :: a2) =
        serializeAttrs a1 ++ (pstr " " ++ k) ++ serializeAttrs a2 ∧
      serializeAttrs (a1 ++ (k, AVal.vBool false) :: a2) =
        serializeAttrs a1 ++ serializeAttrs a2) ∧
    (∀ (cfg : Config) (k : PStr) (a1 a2 : List (PStr × AVal)),
      serialize_html cfg (.mk (pstr "div") (a1 ++ (k, AVal.vNone) :: a2) none none [])
          none none none =
        serialize_html cfg (.mk (pstr "div") (a1 ++ (k, AVal.vBool true) :: a2) none none [])
          none none none ∧
      serialize_html cfg (.mk (pstr "div") (a1 ++ (k, AVal.vBool false) :: a2) none none [])
          none none none =
        serialize_html cfg (.mk (pstr "div") (a1 ++ a2) none none []) none none none ∧
      serialize_html cfg (.mk (pstr "div") [(k, AVal.vNone)] none none []) none none none =
        pstr "<div" ++ (pstr " " ++ k) ++ pstr "></div>") ∧
    (∀ k : PStr, k ≠ [] → (∀ c ∈ k, isNameChar c = true) →
      parse_html (pstr "<div " ++ k ++ pstr "></div>") =
        some [.mk (pstr "div") [(lower k, AVal.vNone)] none none []]) := by
  have hseg : ∀ (k : PStr) (v : AVal) (a1 a2 : List (PStr × AVal)),
      serializeAttrs (a1 ++ (k, v) :: a2) =
        serializeAttrs a1 ++ serializeAttrs [(k, v)] ++ serializeAttrs a2 := by
    intro k v a1 a2
    rw [show (k, v) :: a2 = [(k, v)] ++ a2 from rfl, serializeAttrs_append,
      serializeAttrs_append]
    rw [List.append_assoc]
  refine ⟨?_, ?_, ?_⟩
  · intro k a1 a2
    refine ⟨?_, ?_, ?_⟩
    · rw [hseg, serializeAttrs_vNone]
    · rw [hseg, serializeAttrs_vTrue]
    · rw [hseg, serializeAttrs_vFalse, List.append_nil]
  · intro cfg k a1 a2
    have hser : ∀ a : List (PStr × AVal),
        serialize_html cfg (.mk (pstr "div") a none none []) none none none =
          pstr "<" ++ pstr "div" ++ serializeAttrs a ++ pstr ">" ++
            (pstr "</" ++ pstr "div" ++ pstr ">") := by
      intro a
      rw [serialize_unfold]
      unfold serializeBody
      rw [resolve_attrs_div, emit_shape]
      simp only [Element.tag, Element.attrib, Element.text, Element.tail, Element.children]
      have h1 : ¬ (lower (pstr "div") ∈ TAGS_EMPTY) := by decide
      have h2 : ¬ (lower (pstr "div") ∈ TAGS_NOT_ESCAPED) := by decide
      rw [if_neg h1, if_neg h2, if_pos h1]
      simp [List.append_assoc]
    refine ⟨?_, ?_, ?_⟩
    · rw [hser, hser, hseg, hseg, serializeAttrs_vNone, serializeAttrs_vTrue]
    · rw [hser, hser, hseg, serializeAttrs_vFalse, List.append_nil, serializeAttrs_append]
    · rw [hser, serializeAttrs_vNone]
      simp [pstr, List.append_assoc]
  · exact parse_div_bare

theorem C8_witness :
    serializeAttrs ([] ++ (pstr "k", AVal.vNone) :: []) =
      serializeAttrs [] ++ (pstr " " ++ pstr "k") ++ serializeAttrs [] ∧
    parse_html (pstr "<div " ++ pstr "k" ++ pstr "></div>") =
      some [.mk (pstr "div") [(lower (pstr "k"), AVal.vNone)] none none []] := by
  constructor
  · exact (C8_bool_attr_roundtrip.1 (pstr "k") [] []).1
  · exact C8_bool_attr_roundtrip.2.2 (pstr "k") (by decide) (by decide)

end Rico
